/-
Verification of the document decomposition and optimization engine
of the bayon-coagent repository.

Shallow embedding:
  * `scripts/optimize-template.py` (`optimize_template`): a document is the
    list of lines produced by `readlines()`; each line is its list of
    characters (the trailing newline, when present, is part of the line).
  * `infrastructure/split-template.py` (`split_template`): the raw document
    content is a single list of characters; Python `str.find` / `str.rfind`
    (returning -1 on failure) and Python slicing (with negative-index
    normalization) are modelled explicitly.
  * `src/services/strands/run-research.py` (`main`): the collaborating
    `run_research_query` function is passed in as a parameter; an input is
    either a JSON-decode failure or a decoded `{topic, userId}` object.
-/
import Mathlib

abbrev Line := List Char

abbrev Doc := List Line

/-- Python's `\s` character class (ASCII range), also the set stripped by
`str.strip()` / `str.rstrip()`. -/
def isSpaceChar (c : Char) : Bool :=
  c = ' ' || c = '\t' || c = '\n' || c = '\r' || c = '\x0b' || c = '\x0c'

/-- `re.match(r'^\s*#', line)`: after leading whitespace the first
character is `#`. -/
def isPureComment (l : Line) : Bool :=
  match l.dropWhile isSpaceChar with
  | c :: _ => c = '#'
  | [] => false

/-- `line.strip() == ''`: the line is blank after whitespace trimming. -/
def isBlank (l : Line) : Bool := l.all isSpaceChar

/-- `line.rstrip()`: remove trailing whitespace. -/
def rstrip : Line → Line
  | [] => []
  | c :: t =>
    match rstrip t with
    | [] => if isSpaceChar c then [] else [c]
    | r :: rs => c :: r :: rs

/-- Split a line at the first `#` (the position computed by
`line.find('#')`): returns the part before the first `#` and the part
after it, or `none` when the line has no `#`. -/
def splitAtHash : Line → Option (Line × Line)
  | [] => none
  | c :: t =>
    if c = '#' then some ([], t)
    else (splitAtHash t).map (fun p => (c :: p.1, p.2))

/-- The inline-comment test of `optimize_template`:
`comment_pos > 0 and line[comment_pos-1:comment_pos+1] == ' #'`, i.e. the
first `#` exists, is not at position 0, and is preceded by a space. -/
def spaceHashRule (l : Line) : Bool :=
  match splitAtHash l with
  | none => false
  | some (pre, _) => !pre.isEmpty && pre.getLast? == some ' '

/-- The per-line comment stripping of `optimize_template`:
`line = line[:comment_pos].rstrip() + '\n'` when the space-before-marker
test holds, the line unchanged otherwise. -/
def stripInline (l : Line) : Line :=
  match splitAtHash l with
  | none => l
  | some (pre, _) =>
    if !pre.isEmpty && pre.getLast? == some ' ' then rstrip pre ++ ['\n']
    else l

/-- First pass of `optimize_template`: drop pure comment lines (both
branches of the `'=========='` test execute `continue`, so every pure
comment line is dropped), strip inline comments from the rest. -/
def removeComments (doc : Doc) : Doc :=
  doc.filterMap fun l => if isPureComment l then none else some (stripInline l)

/-- Second pass of `optimize_template`: the `empty_count` loop keeping at
most two consecutive blank lines. -/
def collapseAux : Nat → Doc → Doc
  | _, [] => []
  | c, l :: t =>
    if isBlank l then
      if c + 1 ≤ 2 then l :: collapseAux (c + 1) t else collapseAux (c + 1) t
    else l :: collapseAux 0 t

def collapseBlanks (doc : Doc) : Doc := collapseAux 0 doc

/-- The full line transformation of `optimize_template` (the file I/O and
the printed report are modelled separately). -/
def optimize_template (doc : Doc) : Doc := collapseBlanks (removeComments doc)

/-! ### Basic lemmas about the per-line transformation -/

theorem splitAtHash_eq_none {l : Line} (h : '#' ∉ l) : splitAtHash l = none := by
  induction l with
  | nil => rfl
  | cons c t ih =>
    simp only [List.mem_cons, not_or] at h
    simp [splitAtHash, Ne.symm h.1, ih h.2]

theorem splitAtHash_eq_some {l pre post : Line}
    (h : splitAtHash l = some (pre, post)) :
    l = pre ++ '#' :: post ∧ '#' ∉ pre := by
  induction l generalizing pre post with
  | nil => simp [splitAtHash] at h
  | cons c t ih =>
    by_cases hc : c = '#'
    · rw [splitAtHash, if_pos hc] at h
      obtain ⟨h1, h2⟩ := Prod.mk.injEq .. ▸ Option.some.inj h
      subst hc
      simp [← h1, ← h2]
    · rw [splitAtHash, if_neg hc, Option.map_eq_some'] at h
      obtain ⟨⟨a, b⟩, hab, hfa⟩ := h
      simp only [Prod.mk.injEq] at hfa
      obtain ⟨he, hm⟩ := ih hab
      obtain ⟨h1, h2⟩ := hfa
      subst h1 h2
      simp [he, hm, Ne.symm hc]

theorem mem_rstrip {c : Char} {l : Line} (h : c ∈ rstrip l) : c ∈ l := by
  induction l with
  | nil => simp [rstrip] at h
  | cons a t ih =>
    rcases hr : rstrip t with _ | ⟨r, rs⟩
    · simp only [rstrip, hr] at h
      split at h
      · simp at h
      · simp at h
        simp [h]
    · simp only [rstrip, hr] at h
      rcases List.mem_cons.mp h with h | h
      · simp [h]
      · exact List.mem_cons_of_mem _ (ih (hr ▸ h))

theorem rstrip_all_space {l : Line} (h : (rstrip l).all isSpaceChar = true) :
    l.all isSpaceChar = true := by
  induction l with
  | nil => rfl
  | cons a t ih =>
    rcases hr : rstrip t with _ | ⟨r, rs⟩
    · simp only [rstrip, hr] at h
      by_cases ha : isSpaceChar a
      · have ht := ih (by simp [hr])
        simp [List.all_cons, ha, ht]
      · rw [if_neg ha] at h
        simp [List.all_cons, ha] at h
    · simp only [rstrip, hr] at h
      simp only [List.all_cons, Bool.and_eq_true] at h ⊢
      refine ⟨h.1, ?_⟩
      exact ih (by rw [hr]; simp only [List.all_cons, Bool.and_eq_true]; exact h.2)

theorem mem_dropWhile_mem {p : Char → Bool} {l : Line} {c : Char}
    (h : c ∈ l.dropWhile p) : c ∈ l := by
  induction l with
  | nil => simp at h
  | cons a t ih =>
    rw [List.dropWhile_cons] at h
    split at h
    · exact List.mem_cons_of_mem _ (ih h)
    · exact h

theorem noHash_isPureComment_false {l : Line} (h : '#' ∉ l) :
    isPureComment l = false := by
  unfold isPureComment
  rcases hd : l.dropWhile isSpaceChar with _ | ⟨c, t⟩
  · rfl
  · simp only [decide_eq_false_iff_not]
    intro hc
    subst hc
    exact h (mem_dropWhile_mem (hd ▸ List.mem_cons_self '#' t))

theorem noHash_stripInline {l : Line} (h : '#' ∉ l) : stripInline l = l := by
  unfold stripInline
  rw [splitAtHash_eq_none h]

/-- A blank line is neither a pure comment line nor changed by inline
comment stripping. -/
theorem blank_line_stable {l : Line} (h : isBlank l = true) :
    isPureComment l = false ∧ stripInline l = l := by
  have hh : '#' ∉ l := by
    intro hm
    have := List.all_eq_true.mp h '#' hm
    simp [isSpaceChar] at this
  exact ⟨noHash_isPureComment_false hh, noHash_stripInline hh⟩

theorem noHash_rstrip_append_newline {pre : Line} (h : '#' ∉ pre) :
    '#' ∉ rstrip pre ++ ['\n'] := by
  intro hm
  rcases List.mem_append.mp hm with hm | hm
  · exact h (mem_rstrip hm)
  · simp at hm

/-- Evaluate `stripInline` when the line has no `#`. -/
theorem stripInline_of_none {l : Line} (hs : splitAtHash l = none) :
    stripInline l = l := by
  simp only [stripInline, hs]

/-- Evaluate `stripInline` when the space-before-marker test succeeds. -/
theorem stripInline_of_rule {l pre post : Line}
    (hs : splitAtHash l = some (pre, post))
    (hc : (!pre.isEmpty && pre.getLast? == some ' ') = true) :
    stripInline l = rstrip pre ++ ['\n'] := by
  simp only [stripInline, hs]
  rw [if_pos hc]

/-- Evaluate `stripInline` when the space-before-marker test fails. -/
theorem stripInline_of_not_rule {l pre post : Line}
    (hs : splitAtHash l = some (pre, post))
    (hc : ¬(!pre.isEmpty && pre.getLast? == some ' ') = true) :
    stripInline l = l := by
  simp only [stripInline, hs]
  rw [if_neg hc]

/-- Stripping an inline comment is idempotent on a single line. -/
theorem stripInline_idem (l : Line) : stripInline (stripInline l) = stripInline l := by
  rcases hs : splitAtHash l with _ | ⟨pre, post⟩
  · rw [stripInline_of_none hs]
    exact stripInline_of_none hs
  · obtain ⟨-, hm⟩ := splitAtHash_eq_some hs
    by_cases hc : (!pre.isEmpty && pre.getLast? == some ' ') = true
    · rw [stripInline_of_rule hs hc]
      exact stripInline_of_none (splitAtHash_eq_none (noHash_rstrip_append_newline hm))
    · rw [stripInline_of_not_rule hs hc]
      exact stripInline_of_not_rule hs hc

/-- A stripped non-pure-comment line is still not a pure comment line. -/
theorem isPureComment_stripInline {l : Line} (h : isPureComment l = false) :
    isPureComment (stripInline l) = false := by
  rcases hs : splitAtHash l with _ | ⟨pre, post⟩
  · rw [stripInline_of_none hs]
    exact h
  · obtain ⟨-, hm⟩ := splitAtHash_eq_some hs
    by_cases hc : (!pre.isEmpty && pre.getLast? == some ' ') = true
    · rw [stripInline_of_rule hs hc]
      exact noHash_isPureComment_false (noHash_rstrip_append_newline hm)
    · rw [stripInline_of_not_rule hs hc]
      exact h

/-- A non-blank, non-pure-comment line stays non-blank after stripping. -/
theorem isBlank_stripInline {l : Line} (hb : isBlank l = false)
    (hc : isPureComment l = false) : isBlank (stripInline l) = false := by
  rcases hs : splitAtHash l with _ | ⟨pre, post⟩
  · rw [stripInline_of_none hs]
    exact hb
  · obtain ⟨he, hm⟩ := splitAtHash_eq_some hs
    by_cases hif : (!pre.isEmpty && pre.getLast? == some ' ') = true
    · rw [stripInline_of_rule hs hif]
      -- the prefix before the first `#` contains a non-whitespace character:
      -- otherwise the first non-whitespace character of `l` would be `#`.
      have hpre : pre.all isSpaceChar = false := by
        by_contra hall
        rw [Bool.not_eq_false] at hall
        have hdrop : l.dropWhile isSpaceChar = '#' :: post := by
          rw [he]
          rw [List.dropWhile_append]
          simp only [List.isEmpty_iff]
          rw [List.dropWhile_eq_nil_iff.mpr (fun a ha => List.all_eq_true.mp hall a ha)]
          simp [List.dropWhile_cons, isSpaceChar]
        rw [isPureComment, hdrop] at hc
        simp at hc
      have : (rstrip pre).all isSpaceChar = false := by
        by_contra hall
        rw [Bool.not_eq_false] at hall
        exact absurd (rstrip_all_space hall) (by rw [hpre]; simp)
      simp only [isBlank, List.all_append, Bool.and_eq_false_iff]
      exact Or.inl this
    · rw [stripInline_of_not_rule hs hif]
      exact hb

theorem removeComments_nil : removeComments [] = [] := rfl

theorem removeComments_cons (l : Line) (t : Doc) :
    removeComments (l :: t) =
      if isPureComment l then removeComments t
      else stripInline l :: removeComments t := by
  simp only [removeComments, List.filterMap_cons]
  by_cases hc : isPureComment l
  · simp [hc]
  · simp [hc]

theorem removeComments_append (a b : Doc) :
    removeComments (a ++ b) = removeComments a ++ removeComments b :=
  List.filterMap_append ..

/-- Every line of `removeComments doc` is a stripped non-comment line, so it
is itself not a pure comment and is unchanged by further stripping. -/
theorem mem_removeComments {x : Line} {doc : Doc} (h : x ∈ removeComments doc) :
    isPureComment x = false ∧ stripInline x = x := by
  obtain ⟨l, -, hl⟩ := List.mem_filterMap.mp h
  by_cases hc : isPureComment l = true
  · simp [hc] at hl
  · rw [if_neg hc] at hl
    obtain rfl : stripInline l = x := Option.some.inj hl
    exact ⟨isPureComment_stripInline (by simpa using hc), stripInline_idem l⟩

/-- On a document none of whose lines is a pure comment or strippable,
the comment pass is the identity. -/
theorem removeComments_stable {doc : Doc}
    (h : ∀ l ∈ doc, isPureComment l = false ∧ stripInline l = l) :
    removeComments doc = doc := by
  induction doc with
  | nil => rfl
  | cons l t ih =>
    obtain ⟨h1, h2⟩ := h l (List.mem_cons_self ..)
    rw [removeComments_cons, if_neg (by simp [h1]), h2,
      ih fun x hx => h x (List.mem_cons_of_mem _ hx)]

/-! ### Lemmas about the blank-collapsing pass -/

theorem mem_collapseAux {x : Line} : ∀ {ys : Doc} {c : Nat},
    x ∈ collapseAux c ys → x ∈ ys := by
  intro ys
  induction ys with
  | nil => intro c h; simp [collapseAux] at h
  | cons l t ih =>
    intro c h
    rw [collapseAux] at h
    by_cases hb : isBlank l
    · rw [if_pos hb] at h
      by_cases hc : c + 1 ≤ 2
      · rw [if_pos hc] at h
        rcases List.mem_cons.mp h with h | h
        · simp [h]
        · exact List.mem_cons_of_mem _ (ih h)
      · rw [if_neg hc] at h
        exact List.mem_cons_of_mem _ (ih h)
    · rw [if_neg hb] at h
      rcases List.mem_cons.mp h with h | h
      · simp [h]
      · exact List.mem_cons_of_mem _ (ih h)

/-- A non-blank member of the input survives blank collapsing. -/
theorem mem_collapseAux_of_nonblank {x : Line} (hb : isBlank x = false) :
    ∀ {ys : Doc} {c : Nat}, x ∈ ys → x ∈ collapseAux c ys := by
  intro ys
  induction ys with
  | nil => intro c h; simp at h
  | cons l t ih =>
    intro c h
    rw [collapseAux]
    rcases List.mem_cons.mp h with h | h
    · subst h
      rw [if_neg (by simp [hb])]
      simp
    · by_cases hbl : isBlank l
      · rw [if_pos hbl]
        by_cases hc : c + 1 ≤ 2
        · rw [if_pos hc]
          exact List.mem_cons_of_mem _ (ih h)
        · rw [if_neg hc]
          exact ih h
      · rw [if_neg hbl]
        exact List.mem_cons_of_mem _ (ih h)

/-- Collapsing with a saturated-at-2 counter is idempotent. -/
theorem collapseAux_idem : ∀ (ys : Doc) (c : Nat),
    collapseAux (min c 2) (collapseAux c ys) = collapseAux c ys := by
  intro ys
  induction ys with
  | nil => intro c; rfl
  | cons l t ih =>
    intro c
    by_cases hb : isBlank l
    · by_cases hc : c + 1 ≤ 2
      · rw [collapseAux, if_pos hb, if_pos hc, collapseAux, if_pos hb,
          Nat.min_eq_left (by omega)]
        rw [if_pos hc]
        have := ih (c + 1)
        rw [Nat.min_eq_left (by omega)] at this
        rw [this]
      · rw [collapseAux, if_pos hb, if_neg hc]
        have := ih (c + 1)
        rw [Nat.min_eq_right (by omega)] at this
        rw [Nat.min_eq_right (by omega)]
        exact this
    · rw [collapseAux, if_neg hb, collapseAux, if_neg hb]
      have := ih 0
      rw [Nat.min_eq_left (by omega)] at this
      rw [this]

/-! ### C1: conservative comment stripping -/

/-- C1 (counterexample): the claim asserts that the line `value: "a # b"`
passes through the optimizer unmodified, but its first `#` is preceded by a
space, so `optimize_template` rewrites it to `value: "a` (with a newline):
the non-comment content of the line is changed. -/
theorem C1_counterexample :
    optimize_template ["value: \"a # b\"\n".toList]
      = ["value: \"a\n".toList]
    ∧ "value: \"a\n".toList ≠ "value: \"a # b\"\n".toList := by
  constructor
  · decide
  · decide

/-- C1 (amended): for every input line that is neither a pure comment line
nor blank, the optimizer keeps exactly the stripped form of the line in its
output; the line is rewritten (to the whitespace-trimmed text before its
first `#`, plus a newline) exactly when its first `#` occurs at a positive
position immediately preceded by a space — even when that `#` lies inside a
quoted value — and is otherwise kept byte-identical. -/
theorem C1_amended_thm (doc : Doc) (l : Line) (hmem : l ∈ doc)
    (hcom : isPureComment l = false) (hbl : isBlank l = false) :
    stripInline l ∈ optimize_template doc
    ∧ (spaceHashRule l = false → stripInline l = l)
    ∧ (∀ pre post, splitAtHash l = some (pre, post) → spaceHashRule l = true →
        stripInline l = rstrip pre ++ ['\n']) := by
  refine ⟨?_, ?_, ?_⟩
  · have h1 : stripInline l ∈ removeComments doc := by
      apply List.mem_filterMap.mpr
      exact ⟨l, hmem, by rw [if_neg (by simp [hcom])]⟩
    exact mem_collapseAux_of_nonblank (isBlank_stripInline hbl hcom) h1
  · intro hrule
    rcases hs : splitAtHash l with _ | ⟨pre, post⟩
    · exact stripInline_of_none hs
    · refine stripInline_of_not_rule hs ?_
      intro hc
      rw [spaceHashRule, hs] at hrule
      simp only [hc] at hrule
      cases hrule
  · intro pre post hs hrule
    refine stripInline_of_rule hs ?_
    rw [spaceHashRule, hs] at hrule
    exact hrule

/-- C1 (witness): the claim's second concrete scenario, obtained from the
amended theorem: `key: value  # trailing note` is rewritten to
`key: value` and kept in the output. -/
theorem C1_witness :
    stripInline "key: value  # trailing note\n".toList
        ∈ optimize_template ["key: value  # trailing note\n".toList]
    ∧ stripInline "key: value  # trailing note\n".toList
        = "key: value\n".toList := by
  refine ⟨(C1_amended_thm ["key: value  # trailing note\n".toList]
    "key: value  # trailing note\n".toList (by decide) (by decide) (by decide)).1, ?_⟩
  decide

/-! ### C3: idempotence of the optimizer -/

/-- C3: the optimizer is idempotent: a second run produces no further
change on any document. -/
theorem C3_thm (doc : Doc) :
    optimize_template (optimize_template doc) = optimize_template doc := by
  unfold optimize_template collapseBlanks
  have h1 : removeComments (collapseAux 0 (removeComments doc))
      = collapseAux 0 (removeComments doc) := by
    apply removeComments_stable
    intro l hl
    exact mem_removeComments (mem_collapseAux hl)
  rw [h1]
  have := collapseAux_idem (removeComments doc) 0
  rwa [Nat.min_eq_left (by omega)] at this

/-! ### C4: no run of more than two consecutive blank lines -/

/-- `true` exactly when the document contains three consecutive blank
lines somewhere, i.e. a blank run longer than two. -/
def hasTripleBlank : Doc → Bool
  | a :: b :: c :: t =>
    (isBlank a && isBlank b && isBlank c) || hasTripleBlank (b :: c :: t)
  | _ => false

theorem hasTripleBlank_cons (x : Line) (xs : Doc) :
    hasTripleBlank (x :: xs)
      = ((isBlank x && decide (2 ≤ (xs.takeWhile isBlank).length))
          || hasTripleBlank xs) := by
  match xs with
  | [] => simp [hasTripleBlank]
  | [b] =>
    by_cases hb : isBlank b
    · simp [hasTripleBlank, List.takeWhile, hb]
    · simp [hasTripleBlank, List.takeWhile, hb]
  | b :: c :: t =>
    by_cases hb : isBlank b
    · by_cases hc : isBlank c
      · simp [hasTripleBlank, List.takeWhile, hb, hc]
      · simp [hasTripleBlank, List.takeWhile, hb, hc]
    · simp [hasTripleBlank, List.takeWhile, hb]

/-- The collapsing pass started with counter `c` emits at most `2 - c`
blank lines before the first non-blank line. -/
theorem takeWhile_collapseAux_le : ∀ (ys : Doc) (c : Nat),
    ((collapseAux c ys).takeWhile isBlank).length ≤ 2 - c := by
  intro ys
  induction ys with
  | nil => intro c; simp [collapseAux]
  | cons l t ih =>
    intro c
    by_cases hb : isBlank l
    · by_cases hc : c + 1 ≤ 2
      · rw [collapseAux, if_pos hb, if_pos hc]
        rw [List.takeWhile_cons, if_pos hb]
        have := ih (c + 1)
        simp only [List.length_cons]
        omega
      · rw [collapseAux, if_pos hb, if_neg hc]
        have := ih (c + 1)
        omega
    · rw [collapseAux, if_neg hb, List.takeWhile_cons, if_neg (by simp [hb])]
      simp

theorem hasTripleBlank_collapseAux : ∀ (ys : Doc) (c : Nat),
    hasTripleBlank (collapseAux c ys) = false := by
  intro ys
  induction ys with
  | nil => intro c; rfl
  | cons l t ih =>
    intro c
    by_cases hb : isBlank l
    · by_cases hc : c + 1 ≤ 2
      · rw [collapseAux, if_pos hb, if_pos hc, hasTripleBlank_cons, ih (c + 1)]
        have := takeWhile_collapseAux_le t (c + 1)
        have h2 : ¬(2 ≤ ((collapseAux (c + 1) t).takeWhile isBlank).length) := by omega
        simp [h2]
      · rw [collapseAux, if_pos hb, if_neg hc]
        exact ih (c + 1)
    · rw [collapseAux, if_neg hb, hasTripleBlank_cons, ih 0]
      simp [hb]

/-- C4: in any optimized output, no run of consecutive blank lines exceeds
two: the output never contains three consecutive blank lines. -/
theorem C4_thm (doc : Doc) :
    hasTripleBlank (optimize_template doc) = false :=
  hasTripleBlank_collapseAux (removeComments doc) 0

/-! ### C5: how blank runs travel through the optimizer -/

/-- The first line of the document is blank (`false` on the empty
document). -/
def headBlank (d : Doc) : Bool :=
  match d with
  | [] => false
  | l :: _ => isBlank l

/-- The last line of the document is blank (`false` on the empty
document). -/
def lastBlank (d : Doc) : Bool :=
  match d.getLast? with
  | none => false
  | some l => isBlank l

theorem collapseAux_cons_blank_le {l : Line} (hl : isBlank l = true) {c : Nat}
    (hc : c + 1 ≤ 2) (t : Doc) :
    collapseAux c (l :: t) = l :: collapseAux (c + 1) t := by
  rw [collapseAux, if_pos hl, if_pos hc]

theorem collapseAux_cons_blank_gt {l : Line} (hl : isBlank l = true) {c : Nat}
    (hc : ¬c + 1 ≤ 2) (t : Doc) :
    collapseAux c (l :: t) = collapseAux (c + 1) t := by
  rw [collapseAux, if_pos hl, if_neg hc]

theorem collapseAux_cons_nonblank {l : Line} (hl : isBlank l = false) (c : Nat)
    (t : Doc) : collapseAux c (l :: t) = l :: collapseAux 0 t := by
  rw [collapseAux, if_neg (by simp [hl])]

/-- Collapsing distributes over an append whose left part ends in a
non-blank line (the counter is reset there). -/
theorem collapseAux_append_of_last : ∀ (xs : Doc), lastBlank xs = false → xs ≠ [] →
    ∀ (c : Nat) (ys : Doc),
      collapseAux c (xs ++ ys) = collapseAux c xs ++ collapseAux 0 ys := by
  intro xs
  induction xs with
  | nil => intro _ hne; exact absurd rfl hne
  | cons x t ih =>
    intro hlb _ c ys
    rcases t with _ | ⟨x', t'⟩
    · have hx : isBlank x = false := by simpa [lastBlank] using hlb
      simp only [List.cons_append, List.nil_append]
      rw [collapseAux_cons_nonblank hx, collapseAux_cons_nonblank hx]
      simp [collapseAux]
    · have hlb' : lastBlank (x' :: t') = false := by
        rw [lastBlank] at hlb ⊢
        rwa [List.getLast?_cons_cons] at hlb
      have ih' := ih hlb' (by simp)
      simp only [List.cons_append] at ih'
      by_cases hx : isBlank x
      · by_cases hc : c + 1 ≤ 2
        · simp only [List.cons_append]
          rw [collapseAux_cons_blank_le hx hc, collapseAux_cons_blank_le hx hc,
            ih' (c + 1) ys]
          simp
        · simp only [List.cons_append]
          rw [collapseAux_cons_blank_gt hx hc, collapseAux_cons_blank_gt hx hc]
          exact ih' (c + 1) ys
      · have hx' : isBlank x = false := by simpa using hx
        simp only [List.cons_append]
        rw [collapseAux_cons_nonblank hx', collapseAux_cons_nonblank hx',
          ih' 0 ys]
        simp

/-- Collapsing a run of blank lines keeps its first `2 - c` lines and
passes the incremented counter on. -/
theorem collapseAux_blank_run : ∀ (b : Doc), (∀ l ∈ b, isBlank l = true) →
    ∀ (c : Nat) (s : Doc),
      collapseAux c (b ++ s) = b.take (2 - c) ++ collapseAux (c + b.length) s := by
  intro b
  induction b with
  | nil => intro _ c s; simp [collapseAux]
  | cons l b' ih =>
    intro hb c s
    have hl : isBlank l = true := hb l (List.mem_cons_self ..)
    have ih' := ih fun x hx => hb x (List.mem_cons_of_mem _ hx)
    by_cases hc : c + 1 ≤ 2
    · simp only [List.cons_append]
      rw [collapseAux, if_pos hl, if_pos hc, ih' (c + 1) s]
      have h1 : 2 - c = (2 - (c + 1)) + 1 := by omega
      rw [h1, List.take_succ_cons]
      have h2 : c + 1 + b'.length = c + (l :: b').length := by simp; omega
      rw [h2]
      simp
    · simp only [List.cons_append]
      rw [collapseAux, if_pos hl, if_neg hc, ih' (c + 1) s]
      have h1 : 2 - c = 0 := by omega
      have h2 : 2 - (c + 1) = 0 := by omega
      rw [h1, h2]
      have h3 : c + 1 + b'.length = c + (l :: b').length := by simp; omega
      rw [h3]
      simp

/-- The collapsing counter is irrelevant when the rest of the document
starts with a non-blank line (or is empty). -/
theorem collapseAux_counter_irrel {s : Doc} (h : headBlank s = false) (n m : Nat) :
    collapseAux n s = collapseAux m s := by
  rcases s with _ | ⟨l, t⟩
  · rfl
  · have hl : isBlank l = false := by simpa [headBlank] using h
    rw [collapseAux, if_neg (by simp [hl]), collapseAux, if_neg (by simp [hl])]

/-- C5 (counterexample): the claim asserts every blank run of length one
or two in the input passes through unchanged.  In the document
`blank, blank, comment, blank` the final blank line is a maximal run of
length one (the comment line is non-blank), yet the comment pass deletes
the comment line, merging the runs into three blanks, and the collapsing
pass then drops the third: the input has three blank lines, all in runs of
length at most two, but the output keeps only two. -/
theorem C5_counterexample :
    optimize_template ["\n".toList, "\n".toList, "# c\n".toList, "\n".toList]
      = ["\n".toList, "\n".toList]
    ∧ isBlank "# c\n".toList = false
    ∧ ["\n".toList, "\n".toList, "# c\n".toList, "\n".toList].countP isBlank = 3
    ∧ ["\n".toList, "\n".toList].countP isBlank = 2 := by
  refine ⟨by decide, by decide, by decide, by decide⟩

/-- C5 (amended): blank-run preservation holds for the runs of the
document as they stand *after* the comment-removal pass: if `b` is a
maximal blank run there (what precedes it in the comment-stripped document
ends non-blank, what follows starts non-blank), then the optimizer keeps
exactly `b.take 2` of it — all of `b` when its length is at most two, and
exactly two lines when it is longer. -/
theorem C5_amended_thm (p b s : Doc)
    (hb : ∀ l ∈ b, isBlank l = true)
    (hp : lastBlank (removeComments p) = false)
    (hs : headBlank (removeComments s) = false) :
    optimize_template (p ++ b ++ s)
      = optimize_template p ++ b.take 2 ++ optimize_template s
    ∧ (b.length ≤ 2 → b.take 2 = b)
    ∧ (2 ≤ b.length → (b.take 2).length = 2) := by
  refine ⟨?_, fun h => List.take_of_length_le h,
    fun h => by rw [List.length_take]; omega⟩
  unfold optimize_template collapseBlanks
  rw [removeComments_append, removeComments_append]
  rw [removeComments_stable fun l hl => blank_line_stable (hb l hl)]
  rcases hrp : removeComments p with _ | ⟨q, qs⟩
  · simp only [List.nil_append, collapseAux]
    rw [collapseAux_blank_run b hb 0 (removeComments s)]
    rw [collapseAux_counter_irrel hs (0 + b.length) 0]
  · rw [List.append_assoc]
    rw [collapseAux_append_of_last (q :: qs) (hrp ▸ hp) (by simp) 0
      (b ++ removeComments s)]
    rw [collapseAux_blank_run b hb 0 (removeComments s)]
    rw [collapseAux_counter_irrel hs (0 + b.length) 0]
    simp

/-- C5 (witness): the amended statement at a concrete document
`a, blank, blank, blank, b`: the three-blank run becomes exactly two. -/
theorem C5_witness :
    optimize_template (["a\n".toList]
        ++ ["\n".toList, "\n".toList, "\n".toList] ++ ["b\n".toList])
      = optimize_template ["a\n".toList]
        ++ ["\n".toList, "\n".toList, "\n".toList].take 2
        ++ optimize_template ["b\n".toList]
    ∧ (["\n".toList, "\n".toList, "\n".toList].length ≤ 2 →
        ["\n".toList, "\n".toList, "\n".toList].take 2
          = ["\n".toList, "\n".toList, "\n".toList])
    ∧ (2 ≤ ["\n".toList, "\n".toList, "\n".toList].length →
        (["\n".toList, "\n".toList, "\n".toList].take 2).length = 2) :=
  C5_amended_thm ["a\n".toList] ["\n".toList, "\n".toList, "\n".toList]
    ["b\n".toList] (by decide) (by decide) (by decide)

/-! ## The splitter (`infrastructure/split-template.py`)

The raw file content is a single list of characters.  Python `str.find`,
`str.rfind` (−1 on failure) and slicing (with negative-index
normalization) are modelled explicitly. -/

/-- Index of the first occurrence of `pat` in the text, `str.find`'s
successful result. -/
def findSub (pat : Line) : Line → Option Nat
  | [] => if pat = [] then some 0 else none
  | c :: t =>
    if pat.isPrefixOf (c :: t) then some 0
    else (findSub pat t).map (· + 1)

/-- Index of the last occurrence of `pat` in the text, `str.rfind`'s
successful result. -/
def rfindSub (pat : Line) : Line → Option Nat
  | [] => if pat = [] then some 0 else none
  | c :: t =>
    match rfindSub pat t with
    | some i => some (i + 1)
    | none => if pat.isPrefixOf (c :: t) then some 0 else none

/-- Python `str.find`: −1 when the pattern does not occur. -/
def pyFind (content pat : Line) : Int :=
  match findSub pat content with
  | some i => (i : Int)
  | none => -1

/-- Python `str.rfind`: −1 when the pattern does not occur. -/
def pyRFind (content pat : Line) : Int :=
  match rfindSub pat content with
  | some i => (i : Int)
  | none => -1

/-- Normalization of one slice index as Python does it: negative indices
count from the end (clamped at 0), positive ones are clamped at the
length. -/
def pyIdx (n : Nat) (i : Int) : Nat :=
  if i < 0 then ((n : Int) + i).toNat else min i.toNat n

/-- Python slicing `s[a:b]` for integer indices. -/
def pySlice (s : Line) (a b : Int) : Line :=
  (s.take (pyIdx s.length b)).drop (pyIdx s.length a)

/-- The trailing output-declarations marker. -/
def outputsMarker : Line := "Outputs:".toList

/-- The marker opening the resource block. -/
def resourcesMarker : Line := "Resources:".toList

/-- One entry of the `sections` table of `split_template`. -/
structure SectionSpec where
  name : Line
  startMarker : Line
  endMarker : Line
  description : Line
deriving DecidableEq, Repr

/-- The boundary resolution and extraction done for one section inside
`split_template`'s loop:
`start_pos = content.find(start)`; `end_pos = content.find(end)`;
skip (with a warning) when `start_pos == -1`;
`end_pos = content.rfind('Outputs:')` when `end_pos == -1`;
extract `content[start_pos:end_pos]`. -/
def extractSection (content : Line) (spec : SectionSpec) : Option Line :=
  let start_pos := pyFind content spec.startMarker
  let end_pos := pyFind content spec.endMarker
  if start_pos = -1 then none
  else
    let end_pos2 := if end_pos = -1 then pyRFind content outputsMarker else end_pos
    some (pySlice content start_pos end_pos2)

/-- `split_template`'s loop over the `sections` table: the first
component collects, in order, the (file name, extracted body) pairs of
the sections whose start marker was found; the second collects the names
of the sections skipped with a "start marker not found" warning. -/
def split_template (content : Line) : List SectionSpec → List (Line × Line) × List Line
  | [] => ([], [])
  | spec :: rest =>
    let r := split_template content rest
    match extractSection content spec with
    | some body => ((spec.name, body) :: r.1, r.2)
    | none => (r.1, spec.name :: r.2)

/-- The resource block as the specification's data model defines it: the
substring of the document from the `"Resources:"` marker to the start of
the trailing (rightmost) `"Outputs:"` marker. -/
def resourceBlockSpec (content : Line) : Line :=
  pySlice content (pyFind content resourcesMarker) (pyRFind content outputsMarker)

theorem findSub_le_length {pat : Line} : ∀ {s : Line} {i : Nat},
    findSub pat s = some i → i ≤ s.length := by
  intro s
  induction s with
  | nil =>
    intro i h
    rw [findSub] at h
    split at h
    · simp_all
    · cases h
  | cons c t ih =>
    intro i h
    rw [findSub] at h
    split at h
    · cases Option.some.inj h
      simp
    · rw [Option.map_eq_some'] at h
      obtain ⟨j, hj, rfl⟩ := h
      have := ih hj
      simp only [List.length_cons]
      omega

theorem rfindSub_le_length {pat : Line} : ∀ {s : Line} {i : Nat},
    rfindSub pat s = some i → i ≤ s.length := by
  intro s
  induction s with
  | nil =>
    intro i h
    rw [rfindSub] at h
    split at h
    · simp_all
    · cases h
  | cons c t ih =>
    intro i h
    rcases hr : rfindSub pat t with _ | j
    · simp only [rfindSub, hr] at h
      split at h
      · cases Option.some.inj h
        simp
      · cases h
    · simp only [rfindSub, hr] at h
      cases Option.some.inj h
      have := ih hr
      simp only [List.length_cons]
      omega

theorem pyIdx_of_le {n i : Nat} (h : i ≤ n) : pyIdx n (i : Int) = i := by
  rw [pyIdx, if_neg (by omega)]
  simp [Int.toNat_natCast]
  omega

/-- Evaluation of `extractSection` when both markers are found: the body
runs from the start marker's first occurrence to the end marker's first
occurrence *in the whole document*. -/
theorem extractSection_both_found {content : Line} {spec : SectionSpec} {sp ep : Nat}
    (hsp : findSub spec.startMarker content = some sp)
    (hep : findSub spec.endMarker content = some ep) :
    extractSection content spec = some ((content.take ep).drop sp) := by
  simp only [extractSection, pyFind, hsp, hep]
  rw [if_neg (by omega), if_neg (by omega)]
  rw [pySlice, pyIdx_of_le (findSub_le_length hsp), pyIdx_of_le (findSub_le_length hep)]

/-- Evaluation of `extractSection` when the end marker is absent but
`"Outputs:"` occurs: the body runs to the rightmost `"Outputs:"`. -/
theorem extractSection_fallback {content : Line} {spec : SectionSpec} {sp op : Nat}
    (hsp : findSub spec.startMarker content = some sp)
    (hep : findSub spec.endMarker content = none)
    (hout : rfindSub outputsMarker content = some op) :
    extractSection content spec = some ((content.take op).drop sp) := by
  simp only [extractSection, pyFind, pyRFind, hsp, hep, hout]
  rw [if_neg (by omega)]
  simp only [if_true]
  rw [pySlice, pyIdx_of_le (findSub_le_length hsp), pyIdx_of_le (rfindSub_le_length hout)]

/-! ### C2: section end resolution -/

/-- C2 (counterexample): in the document `e s e Outputs:` with
`startMarker = "s"`, `endMarker = "e"`, the first occurrence of the end
marker *after* the start offset 2 is at offset 4 (offset 1 of the text
after position 3), so the claim prescribes the body `"s "`; but the code
takes the first occurrence of the end marker in the whole document,
offset 0, and `content[2:0]` is empty. -/
theorem C2_counterexample :
    extractSection "e s e Outputs:".toList ⟨[], "s".toList, "e".toList, []⟩
      = some []
    ∧ findSub "e".toList ("e s e Outputs:".toList.drop 3) = some 1
    ∧ pySlice "e s e Outputs:".toList 2 4 = "s ".toList
    ∧ some ([] : Line) ≠ some "s ".toList := by
  refine ⟨by decide, by decide, by decide, by decide⟩

/-- C2 (amended): for a `SectionSpec` whose start marker occurs (first
occurrence at `sp`): if the end marker occurs anywhere in the document,
the section body is the text from offset `sp` to the end marker's first
occurrence in the *whole document* — not necessarily after `sp`; when
that occurrence is at or before `sp` the body is empty.  If the end
marker occurs nowhere, the body runs from `sp` to the position just
before the rightmost occurrence of `"Outputs:"`. -/
theorem C2_amended_thm (content : Line) (spec : SectionSpec) (sp : Nat)
    (hsp : findSub spec.startMarker content = some sp) :
    (∀ ep, findSub spec.endMarker content = some ep →
      extractSection content spec = some ((content.take ep).drop sp)
      ∧ (ep ≤ sp → extractSection content spec = some []))
    ∧ (findSub spec.endMarker content = none →
      ∀ op, rfindSub outputsMarker content = some op →
        extractSection content spec = some ((content.take op).drop sp)) := by
  constructor
  · intro ep hep
    refine ⟨extractSection_both_found hsp hep, fun hle => ?_⟩
    rw [extractSection_both_found hsp hep]
    have : (content.take ep).drop sp = [] := by
      apply List.drop_eq_nil_of_le
      calc (content.take ep).length ≤ ep := by
            rw [List.length_take]; omega
        _ ≤ sp := hle
    rw [this]
  · intro hep op hout
    exact extractSection_fallback hsp hep hout

/-- C2 (witness): the amended statement evaluated on `S E Outputs:` with
`startMarker = "S"`, `endMarker = "E"`. -/
theorem C2_witness :
    extractSection "S E Outputs:".toList ⟨[], "S".toList, "E".toList, []⟩
      = some (("S E Outputs:".toList.take 2).drop 0) :=
  ((C2_amended_thm "S E Outputs:".toList ⟨[], "S".toList, "E".toList, []⟩ 0
    (by decide)).1 2 (by decide)).1

/-! ### C10: doubly-missing marker slices off the last character -/

/-- C10: when the start marker is found at `sp`, the end marker is absent
and `"Outputs:"` occurs nowhere, `content.rfind('Outputs:')` yields −1 and
`content[start_pos:-1]` extracts from the start marker up to but excluding
the final character of the document. -/
theorem C10_thm (content : Line) (spec : SectionSpec) (sp : Nat)
    (hsp : findSub spec.startMarker content = some sp)
    (hep : findSub spec.endMarker content = none)
    (hout : rfindSub outputsMarker content = none) :
    extractSection content spec = some ((content.drop sp).dropLast) := by
  simp only [extractSection, pyFind, pyRFind, hsp, hep, hout]
  rw [if_neg (by omega)]
  simp only [if_true]
  rw [pySlice, pyIdx_of_le (findSub_le_length hsp)]
  have h1 : pyIdx content.length (-1) = content.length - 1 := by
    rw [pyIdx, if_pos (by omega)]
    omega
  rw [h1, List.drop_take, List.dropLast_eq_take, List.length_drop]
  have h2 : content.length - 1 - sp = content.length - sp - 1 := by omega
  rw [h2]

/-- C10 (witness): on the document `xSab` with start marker `S` and an
end marker and `Outputs:` that occur nowhere, the extracted body is `Sa` —
the text from the marker up to but excluding the final character. -/
theorem C10_witness :
    extractSection "xSab".toList ⟨[], "S".toList, "E".toList, []⟩
      = some (("xSab".toList.drop 1).dropLast) :=
  C10_thm "xSab".toList ⟨[], "S".toList, "E".toList, []⟩ 1
    (by decide) (by decide) (by decide)

/-! ### C7: missing start markers are skipped, everything else proceeds -/

theorem extractSection_eq_none_iff {content : Line} {s : SectionSpec} :
    extractSection content s = none ↔ findSub s.startMarker content = none := by
  rcases h : findSub s.startMarker content with _ | sp
  · simp only [extractSection, pyFind, h]
    simp
  · simp only [extractSection, pyFind, h]
    rw [if_neg (by omega)]
    simp

/-- C7: the splitter never aborts on a missing start marker: its outputs
are exactly the (name, body) pairs of the specs whose start marker occurs,
in order, and its warnings are exactly the names of the specs whose start
marker does not occur. -/
theorem C7_thm (content : Line) (specs : List SectionSpec) :
    split_template content specs
      = ((specs.filter fun s => (findSub s.startMarker content).isSome).map
            fun s => (s.name, (extractSection content s).getD []),
          (specs.filter fun s => (findSub s.startMarker content).isNone).map
            SectionSpec.name) := by
  induction specs with
  | nil => rfl
  | cons spec rest ih =>
    rcases h : extractSection content spec with _ | body
    · have hf : findSub spec.startMarker content = none :=
        extractSection_eq_none_iff.mp h
      simp only [split_template, h, ih, List.filter_cons, hf, Option.isSome_none,
        Option.isNone_none, Bool.false_eq_true, if_false, if_true, List.map_cons]
    · have hf : (findSub spec.startMarker content).isSome = true := by
        rcases hh : findSub spec.startMarker content with _ | sp
        · rw [extractSection_eq_none_iff.mpr hh] at h
          cases h
        · rfl
      have hn : (findSub spec.startMarker content).isNone = false := by
        rcases hh : findSub spec.startMarker content with _ | sp
        · rw [hh] at hf
          cases hf
        · rfl
      simp only [split_template, h, ih, List.filter_cons, hf, hn,
        Bool.false_eq_true, if_false, if_true, List.map_cons, Option.getD_some]

/-! ### C6: concatenation of contiguous sections -/

theorem slice_append (s : Line) {a b c : Nat} (h1 : a ≤ b) (h2 : b ≤ c) :
    (s.take b).drop a ++ (s.take c).drop b = (s.take c).drop a := by
  rw [List.drop_take, List.drop_take, List.drop_take]
  have hd : List.drop b s = List.drop (b - a) (List.drop a s) := by
    rw [List.drop_drop]
    congr 1
    omega
  rw [hd, ← List.take_add]
  congr 1
  omega

/-- A contiguous family of `SectionSpec`s as C6 describes them: each
spec's end marker is the next spec's start marker, and the last spec ends
at the `"Outputs:"` marker (names and descriptions are irrelevant to
extraction). -/
def contiguousSpecs : List Line → List SectionSpec
  | [] => []
  | [m] => [⟨[], m, outputsMarker, []⟩]
  | m :: m' :: rest => ⟨[], m, m', []⟩ :: contiguousSpecs (m' :: rest)

/-- C6 (counterexample): the document `Resources:\nA\nB\nOutputs:\n` with
the contiguous specs `(A → B), (B → Outputs:)` contains every declared
marker, yet the concatenation of the extracted bodies is `A\nB\n`, while
the resource block — the substring from the `"Resources:"` marker to the
trailing `"Outputs:"` marker — is `Resources:\nA\nB\n`: the text from
`"Resources:"` up to the first start marker is not covered by any
section. -/
theorem C6_counterexample :
    ((split_template "Resources:\nA\nB\nOutputs:\n".toList
        (contiguousSpecs ["A".toList, "B".toList])).1.map Prod.snd).flatten
      = "A\nB\n".toList
    ∧ resourceBlockSpec "Resources:\nA\nB\nOutputs:\n".toList
      = "Resources:\nA\nB\n".toList
    ∧ "A\nB\n".toList ≠ "Resources:\nA\nB\n".toList := by
  refine ⟨by decide, by decide, by decide⟩

/-- C6 (amended): for contiguous specs over markers `m :: ms` whose
occurrences (together with the first `"Outputs:"` occurrence, which is
where the *last* section ends — the code resolves a found end marker with
`find`, not `rfind`) appear in non-decreasing positions, the concatenation
of all extracted bodies is exactly the text from the *first start marker's*
position to the first `"Outputs:"` occurrence — contiguous, without gaps
or overlaps, but not including the `"Resources:"` header region demanded
by the original claim. -/
theorem C6_amended_thm (content : Line) :
    ∀ (ms : List Line) (m : Line) (p0 : Nat) (ps : List Nat) (pOut : Nat),
    (m :: ms).map (fun x => findSub x content) = (p0 :: ps).map some →
    findSub outputsMarker content = some pOut →
    List.Pairwise (· ≤ ·) ((p0 :: ps) ++ [pOut]) →
    ((split_template content (contiguousSpecs (m :: ms))).1.map Prod.snd).flatten
      = (content.take pOut).drop p0 := by
  intro ms
  induction ms with
  | nil =>
    intro m p0 ps pOut hf hout hpw
    simp only [List.map_cons, List.map_nil, List.cons.injEq] at hf
    have he := @extractSection_both_found content ⟨[], m, outputsMarker, []⟩ p0 pOut
      hf.1 hout
    simp only [contiguousSpecs, split_template, he, List.map_cons, List.map_nil,
      List.flatten_cons, List.flatten_nil]
    simp
  | cons m' ms' ih =>
    intro m p0 ps pOut hf hout hpw
    rcases ps with _ | ⟨p1, ps'⟩
    · simp only [List.map_cons, List.map_nil, List.cons.injEq] at hf
      have := hf.2
      simp at this
    · simp only [List.map_cons, List.cons.injEq] at hf
      obtain ⟨h0, h1, hrest⟩ := hf
      have hpw0 : List.Pairwise (· ≤ ·)
          (p0 :: ((p1 :: ps') ++ [pOut])) := by simpa using hpw
      obtain ⟨hall, hpw'⟩ := List.pairwise_cons.mp hpw0
      have h01 : p0 ≤ p1 := hall p1 (by simp)
      have h1out : p1 ≤ pOut := by
        obtain ⟨hall', -⟩ := List.pairwise_cons.mp hpw'
        exact hall' pOut (by simp)
      have ihj := ih m' p1 ps' pOut
        (by simp only [List.map_cons]; rw [h1, hrest]) hout hpw'
      have he := @extractSection_both_found content ⟨[], m, m', []⟩ p0 p1 h0 h1
      simp only [contiguousSpecs, split_template, he, List.map_cons, List.flatten_cons]
      rw [ihj]
      exact slice_append content h01 h1out

/-- C6 (witness): the amended statement on `A\nB\nOutputs:\n` with
contiguous specs over markers `A`, `B`: the bodies concatenate to the text
from offset 0 to the `"Outputs:"` offset 4. -/
theorem C6_witness :
    ((split_template "A\nB\nOutputs:\n".toList
        (contiguousSpecs ["A".toList, "B".toList])).1.map Prod.snd).flatten
      = ("A\nB\nOutputs:\n".toList.take 4).drop 0 :=
  C6_amended_thm "A\nB\nOutputs:\n".toList ["B".toList] "A".toList 0 [2] 4
    (by decide) (by decide) (by decide)

/-! ## The metrics report of `optimize_template`

`original_lines = len(lines)`, `optimized_lines_count = len(final_lines)`,
`original_size = sum(len(line) for line in lines)` (and the same for the
optimized document), and the two printed percentages
`(before - after) / before * 100`.  Python float arithmetic is modelled
by exact rational arithmetic. -/

def lineCount (doc : Doc) : Nat := doc.length

def byteCount (doc : Doc) : Nat := (doc.map List.length).sum

def percentReduction (before after : Nat) : ℚ :=
  ((before : ℚ) - (after : ℚ)) / (before : ℚ) * 100

/-- The pair of percentages printed by `optimize_template`:
line reduction first, byte reduction second. -/
def reportMetrics (before after : Doc) : ℚ × ℚ :=
  (percentReduction (lineCount before) (lineCount after),
    percentReduction (byteCount before) (byteCount after))

/-! ### C8: metrics correctness at the specified scenario -/

/-- C8: percent reduction is `(before - after) / before * 100`, computed
independently for line counts and byte counts; any source document of 100
lines and 4000 bytes whose optimized result has 60 lines and 2400 bytes
reports a 40% line reduction and a 40% byte reduction. -/
theorem C8_thm (src out : Doc)
    (hl : lineCount src = 100) (hb : byteCount src = 4000)
    (hl' : lineCount out = 60) (hb' : byteCount out = 2400) :
    reportMetrics src out = (40, 40) := by
  rw [reportMetrics, hl, hb, hl', hb']
  norm_num [percentReduction]

/-- C8 (witness): the scenario realized by concrete documents of 100 and
60 lines of 40 characters each. -/
theorem C8_witness :
    reportMetrics (List.replicate 100 (List.replicate 40 'a'))
      (List.replicate 60 (List.replicate 40 'a')) = (40, 40) :=
  C8_thm (List.replicate 100 (List.replicate 40 'a'))
    (List.replicate 60 (List.replicate 40 'a'))
    (by simp [lineCount]) (by simp [byteCount]) (by simp [lineCount])
    (by simp [byteCount])

/-! ## The collaborator entry point (`run-research.py`)

`main` reads JSON from argv or stdin, extracts `topic` (defaulting to the
empty string) and `userId`, and prints exactly one JSON object.  The
imported `run_research_query` is an external collaborator here and is
passed in as a function; `Except.error e` models it raising an exception
with message `e`. -/

/-- The emitted JSON object; `none` fields model absent keys. -/
structure OutObj where
  success : Bool
  report : Option Line
  citations : List Line
  error : Option Line
deriving DecidableEq, Repr

/-- The result of reading and JSON-decoding the input: a decode failure
with its message, or a decoded object's `topic` and `userId` (an absent
`topic` decodes to the empty string via `input_data.get('topic', '')`). -/
inductive StdinInput where
  | malformed (msg : Line)
  | parsed (topic userId : Line)
deriving DecidableEq, Repr

/-- The object printed on a `json.JSONDecodeError`. -/
def invalidJsonObj (m : Line) : OutObj :=
  ⟨false, none, [], some ("Invalid JSON input: ".toList ++ m)⟩

/-- The object printed when `topic` is missing or empty. -/
def topicRequiredObj : OutObj :=
  ⟨false, none, [], some "Topic is required".toList⟩

/-- The object printed when the research call raises. -/
def execFailedObj (e : Line) : OutObj :=
  ⟨false, none, [], some ("Research execution failed: ".toList ++ e)⟩

/-- `main` of `run-research.py`: returns the single emitted JSON object
and the process exit status.  Note the missing-topic branch prints its
error object inside the `try` block and falls through: `sys.exit` is not
called there, so the process exits with status 0. -/
def strandsMain (input : StdinInput)
    (rq : Line → Line → Except Line OutObj) : OutObj × Nat :=
  match input with
  | .malformed m => (invalidJsonObj m, 1)
  | .parsed topic userId =>
    if topic = [] then (topicRequiredObj, 0)
    else
      match rq topic userId with
      | .ok r => (r, 0)
      | .error e => (execFailedObj e, 1)

/-! ### C9: the emitted object and the exit status -/

/-- A fixed benign collaborator, used to instantiate the entry point at
concrete inputs. -/
def rqOk : Line → Line → Except Line OutObj :=
  fun _ _ => Except.ok ⟨true, some [], [], none⟩

/-- C9 (counterexample): the claim demands a non-zero exit status on every
internal failure, including a missing topic; but on input with an empty
`topic` the code prints the `success:false` object with error
`"Topic is required"` and then falls out of the `try` block, exiting with
status 0. -/
theorem C9_counterexample :
    strandsMain (StdinInput.parsed [] "u1".toList) rqOk
      = (topicRequiredObj, 0)
    ∧ topicRequiredObj.success = false
    ∧ topicRequiredObj.error = some "Topic is required".toList := by
  refine ⟨by decide, by decide, by decide⟩

/-- C9 (amended): the process emits exactly one JSON object with fields
`success`, `report`, `citations` and (optionally) `error`; invalid JSON
input and an exception raised by the research call emit `success:false`
with a non-empty error string and exit with status 1, and a successful
call emits the collaborator's object with status 0 — but a missing topic
emits `success:false` with a non-empty error string and exits with
status 0, not a non-zero status. -/
theorem C9_amended_thm (input : StdinInput)
    (rq : Line → Line → Except Line OutObj) :
    (∀ m, input = .malformed m →
      strandsMain input rq = (invalidJsonObj m, 1)
      ∧ (invalidJsonObj m).success = false
      ∧ ∃ s, (invalidJsonObj m).error = some s ∧ s ≠ [])
    ∧ (∀ t u, input = .parsed t u → t = [] →
      strandsMain input rq = (topicRequiredObj, 0)
      ∧ topicRequiredObj.success = false
      ∧ ∃ s, topicRequiredObj.error = some s ∧ s ≠ [])
    ∧ (∀ t u e, input = .parsed t u → t ≠ [] → rq t u = .error e →
      strandsMain input rq = (execFailedObj e, 1)
      ∧ (execFailedObj e).success = false
      ∧ ∃ s, (execFailedObj e).error = some s ∧ s ≠ [])
    ∧ (∀ t u r, input = .parsed t u → t ≠ [] → rq t u = .ok r →
      strandsMain input rq = (r, 0)) := by
  refine ⟨?_, ?_, ?_, ?_⟩
  · intro m hin
    subst hin
    exact ⟨rfl, rfl, "Invalid JSON input: ".toList ++ m, rfl, by simp⟩
  · intro t u hin ht
    subst hin ht
    exact ⟨rfl, rfl, "Topic is required".toList, rfl, by decide⟩
  · intro t u e hin ht hr
    subst hin
    rw [strandsMain, if_neg ht, hr]
    exact ⟨rfl, rfl, "Research execution failed: ".toList ++ e, rfl, by simp⟩
  · intro t u r hin ht hr
    subst hin
    rw [strandsMain, if_neg ht, hr]

/-- C9 (witness): the malformed-input branch of the amended statement at a
concrete input. -/
theorem C9_witness :
    strandsMain (StdinInput.malformed "x".toList) rqOk
      = (invalidJsonObj "x".toList, 1)
    ∧ (invalidJsonObj "x".toList).success = false
    ∧ ∃ s, (invalidJsonObj "x".toList).error = some s ∧ s ≠ [] :=
  (C9_amended_thm (StdinInput.malformed "x".toList) rqOk).1 "x".toList rfl

